import Mathlib

/-!
Verification of the incremental map/asset synchronization core of the
BlenderHPL3export add-on (`io_export_hpl3.py`), shallowly embedded in Lean.

The embedding models:
  * name sanitization (`re.sub('[^0-9a-zA-Z]+', '_', ...)`),
  * the per-section file index (`FileIndex_StaticObjects` / `FileIndex_Entities`
    tables manipulated by `add_object` and `sync_blender_deletions`),
  * the object registry (`Objects` table entries upserted by `add_object`),
  * the asset ledger (`exportscript_asset_tracking.xml`, an `Asset` list
    manipulated by `get_asset_xml_entry`, `add_object`,
    `delete_unused_textures` and `sync_blender_deletions`),
  * the commit step of `execute` (write both documents only if the pass
    raised no `ExportError`).
-/

namespace HPL3

/-- A character matched by the Python class `[0-9a-zA-Z]`. -/
def isAlnumAscii (c : Char) : Bool :=
  decide ((48 ≤ c.toNat ∧ c.toNat ≤ 57) ∨ (97 ≤ c.toNat ∧ c.toNat ≤ 122) ∨
    (65 ≤ c.toNat ∧ c.toNat ≤ 90))

/-- Worker for `re.sub('[^0-9a-zA-Z]+', '_', s)`: the Boolean records whether
we are inside a run of non-alphanumeric characters (a run already replaced by
one underscore). -/
def sanitizeAux : Bool → List Char → List Char
  | _, [] => []
  | inRun, c :: rest =>
    if isAlnumAscii c then c :: sanitizeAux false rest
    else if inRun then sanitizeAux true rest
    else '_' :: sanitizeAux true rest

/-- `re.sub('[^0-9a-zA-Z]+', '_', s)` on the character list of `s`
(io_export_hpl3.py lines 256, 258, 2041): every maximal run of
non-alphanumeric characters becomes a single underscore. -/
def sanitizeChars (l : List Char) : List Char := sanitizeAux false l

/-- Name sanitization as applied to Blender object/mesh names. -/
def sanitize (s : String) : String := ⟨sanitizeChars s.data⟩

theorem sanitizeAux_idem (l : List Char) :
    ∀ b, sanitizeAux b (sanitizeAux b l) = sanitizeAux b l := by
  induction l with
  | nil => intro b; rfl
  | cons c rest ih =>
    intro b
    by_cases h : isAlnumAscii c = true
    · simp [sanitizeAux, h, ih false]
    · cases b with
      | true => simp [sanitizeAux, h, ih true]
      | false =>
        have h' : isAlnumAscii '_' = false := by decide
        simp [sanitizeAux, h, h', ih true]

/-- One `<File Id=... Path=...>` element of a section's file-index table. -/
structure FileEntry where
  id : Nat
  path : String
deriving DecidableEq, Repr

/-- A `FileIndex_StaticObjects` / `FileIndex_Entities` element: its
`NumOfFiles` attribute together with its list of `File` children, in
document order. -/
structure FileIndex where
  numOfFiles : Nat
  files : List FileEntry
deriving DecidableEq, Repr

/-- The file-index lookup loop of `add_object` (lines 383-390): iterate the
`File` children in document order and return the `Id` of the first entry
whose `Path` equals the (already canonicalized) short path. -/
def findPath (files : List FileEntry) (p : String) : Option Nat :=
  (files.find? (fun f => f.path == p)).map (fun f => f.id)

/-- The lookup-or-insert step of `add_object` (lines 383-408).  Returns the
resolved id, the updated index, and whether a fresh index entry was created.
On a miss the new id is the id of the *last* `File` element plus one (the
loop variable `current_idx` holds the last iterated element), or `0` when
the table is empty, and `NumOfFiles` is incremented. -/
def resolveIndex (fi : FileIndex) (p : String) : Nat × FileIndex × Bool :=
  match findPath fi.files p with
  | some i => (i, fi, false)
  | none =>
    let newId : Nat :=
      match fi.files.getLast? with
      | none => 0
      | some lastf => lastf.id + 1
    (newId, ⟨fi.numOfFiles + 1, fi.files ++ [⟨newId, p⟩]⟩, true)

/-- The index-removal step of `sync_blender_deletions` (lines 2061-2071):
decrement `NumOfFiles`, record the `Path` of the entry whose `Id` equals the
removed index, decrement every strictly larger `Id`, and remove that entry.
In the source the entry is removed by element identity and, were no entry to
match, `files.remove(None)` would raise (aborting the pass); that crash case
is modelled as `none`.  Ids are unique in every reachable table (proved
below), so erasing the first match is the behaviour of the source. -/
def removeFileIdx (fi : FileIndex) (ridx : Nat) : Option (String × FileIndex) :=
  match fi.files.find? (fun f => f.id == ridx) with
  | none => none
  | some target =>
    let files' := (fi.files.eraseP (fun f => f.id == ridx)).map
      (fun f => if ridx < f.id then ⟨f.id - 1, f.path⟩ else f)
    some (target.path, ⟨fi.numOfFiles - 1, files'⟩)

/-- One mutation of a section's file-index table as performed by the add-on:
either the lookup-or-insert of `add_object` or a successful compacting
removal inside `sync_blender_deletions`. -/
inductive FIStep : FileIndex → FileIndex → Prop
  | resolve (fi : FileIndex) (p : String) : FIStep fi (resolveIndex fi p).2.1
  | remove (fi : FileIndex) (ridx : Nat) (pth : String) (fi' : FileIndex)
      (h : removeFileIdx fi ridx = some (pth, fi')) : FIStep fi fi'

/-- File-index tables reachable from the empty table freshly created by
`add_object` (lines 360-368: `NumOfFiles = "0"`, no `File` children). -/
inductive FIReachable : FileIndex → Prop
  | empty : FIReachable ⟨0, []⟩
  | step {fi fi' : FileIndex} : FIReachable fi → FIStep fi fi' → FIReachable fi'

/-- Internal invariant of a file-index table: the ids listed in document
order are exactly `0, 1, ..., n-1`, paths are pairwise distinct, and the
`NumOfFiles` attribute equals the number of `File` entries. -/
def FIInv (fi : FileIndex) : Prop :=
  fi.files.map (fun f => f.id) = List.range fi.files.length ∧
  fi.files.Pairwise (fun a b => a.path ≠ b.path) ∧
  fi.numOfFiles = fi.files.length

theorem map_id_range'_getLast {l : List FileEntry} {k m : Nat}
    (h : l.map (fun f => f.id) = List.range' k (m + 1)) :
    ∃ lastf, l.getLast? = some lastf ∧ lastf.id = k + m := by
  have hmap : (l.map (fun f => f.id)).getLast? = (List.range' k (m + 1)).getLast? := by
    rw [h]
  rw [List.getLast?_map] at hmap
  have hr : (List.range' k (m + 1)).getLast? = some (k + m) := by
    have : List.range' k (m + 1) = List.range' k m ++ [k + m] := by
      simpa using @List.range'_concat 1 k m
    rw [this, List.getLast?_concat]
  rw [hr] at hmap
  match hl2 : l.getLast? with
  | none => rw [hl2] at hmap; simp at hmap
  | some lastf =>
    rw [hl2] at hmap
    simp only [Option.map_some'] at hmap
    exact ⟨lastf, rfl, by injection hmap⟩

theorem dec_shift (ridx : Nat) :
    ∀ (l : List FileEntry) (s m : Nat), l.map (fun f => f.id) = List.range' (s + 1) m →
    ridx ≤ s →
    ((l.map (fun f => if ridx < f.id then (⟨f.id - 1, f.path⟩ : FileEntry) else f)).map
      (fun f => f.id)) = List.range' s m := by
  intro l
  induction l with
  | nil =>
    intro s m h _
    have : m = 0 := by
      cases m with
      | zero => rfl
      | succ m' => simp [List.range'_succ] at h
    subst this; rfl
  | cons f rest ih =>
    intro s m h hle
    cases m with
    | zero => simp [List.range'] at h
    | succ m' =>
      rw [List.range'_succ] at h
      simp only [List.map_cons, List.cons.injEq] at h
      obtain ⟨hf, hrest⟩ := h
      have hlt : ridx < f.id := by omega
      simp only [List.map_cons, hlt, if_pos, List.range'_succ, List.cons.injEq]
      constructor
      · omega
      · exact ih (s + 1) m' (by rw [hrest]) (by omega)

theorem range_remove (ridx : Nat) :
    ∀ (l : List FileEntry) (k : Nat), l.map (fun f => f.id) = List.range' k l.length →
    k ≤ ridx → ridx < k + l.length →
    ((l.eraseP (fun f => f.id == ridx)).map
      (fun f => if ridx < f.id then (⟨f.id - 1, f.path⟩ : FileEntry) else f)).map
      (fun f => f.id) = List.range' k (l.length - 1) := by
  intro l
  induction l with
  | nil =>
    intro k _ h1 h2
    simp only [List.length_nil, Nat.add_zero] at h2
    omega
  | cons f rest ih =>
    intro k h hk hlt
    simp only [List.length_cons] at h hlt
    rw [List.range'_succ] at h
    simp only [List.map_cons, List.cons.injEq] at h
    obtain ⟨hf, hrest⟩ := h
    rw [List.eraseP_cons]
    by_cases heq : ridx = k
    · have hp : (f.id == ridx) = true := by simp [hf, heq]
      simp only [hp, cond_true, List.length_cons, Nat.add_sub_cancel]
      exact dec_shift ridx rest k rest.length (by rw [hrest]) (by omega)
    · have hp : (f.id == ridx) = false := by simp [hf]; omega
      simp only [hp, cond_false, List.length_cons, Nat.add_sub_cancel]
      have hnlt : ¬ ridx < f.id := by omega
      simp only [List.map_cons, if_neg hnlt]
      rw [ih (k + 1) (by rw [hrest]) (by omega) (by omega), hf]
      conv_rhs => rw [show rest.length = (rest.length - 1) + 1 from by omega, List.range'_succ]

theorem mem_getLast? {α : Type} : ∀ {l : List α} {a : α}, l.getLast? = some a → a ∈ l
  | [], _, h => by simp at h
  | [x], a, h => by
    simp only [List.getLast?_singleton, Option.some.injEq] at h
    simp [h]
  | x :: y :: ys, a, h => by
    rw [List.getLast?_cons_cons] at h
    exact List.mem_cons_of_mem x (mem_getLast? h)

theorem dec_path (ridx : Nat) (f : FileEntry) :
    (if ridx < f.id then (⟨f.id - 1, f.path⟩ : FileEntry) else f).path = f.path := by
  split <;> rfl

theorem FIInv_resolve (fi : FileIndex) (p : String) (h : FIInv fi) :
    FIInv (resolveIndex fi p).2.1 := by
  obtain ⟨h1, h2, h3⟩ := h
  unfold resolveIndex
  cases hfind : findPath fi.files p with
  | some i => exact ⟨h1, h2, h3⟩
  | none =>
    have hnone : fi.files.find? (fun f => f.path == p) = none := by
      unfold findPath at hfind
      cases hf : fi.files.find? (fun f => f.path == p) with
      | none => rfl
      | some f => rw [hf] at hfind; simp at hfind
    have hnotp : ∀ f ∈ fi.files, f.path ≠ p := by
      intro f hf
      have := List.find?_eq_none.mp hnone f hf
      simpa using this
    cases hlast : fi.files.getLast? with
    | none =>
      have hnil : fi.files = [] := by
        rcases hfl : fi.files with _ | ⟨a, l⟩
        · rfl
        · rw [hfl] at hlast; simp [List.getLast?_concat] at hlast
      simp only [hnil, List.length_nil] at h1 h3
      refine ⟨?_, ?_, ?_⟩
      · simp [hnil, List.range_succ]
      · simp [hnil]
      · simp [hnil, h3]
    | some lastf =>
      have hne : fi.files ≠ [] := by
        intro hc; rw [hc] at hlast; simp at hlast
      obtain ⟨m, hm⟩ : ∃ m, fi.files.length = m + 1 := by
        cases hl : fi.files.length with
        | zero => exact absurd (List.length_eq_zero.mp hl) hne
        | succ m => exact ⟨m, rfl⟩
      have h1' : fi.files.map (fun f => f.id) = List.range' 0 (m + 1) := by
        rw [h1, hm, List.range_eq_range']
      obtain ⟨lastf', hlast', hid⟩ := map_id_range'_getLast h1'
      rw [hlast] at hlast'
      have : lastf = lastf' := by injection hlast'
      subst this
      refine ⟨?_, ?_, ?_⟩
      · simp only [List.map_append, h1, List.map_cons, List.map_nil, List.length_append,
          List.length_cons, List.length_nil]
        rw [hid, hm]
        simp [List.range_succ]
      · rw [List.pairwise_append]
        refine ⟨h2, List.pairwise_singleton _ _, ?_⟩
        intro a ha b hb
        simp only [List.mem_singleton] at hb
        subst hb
        exact hnotp a ha
      · simp [h3]

theorem FIInv_remove (fi : FileIndex) (ridx : Nat) (pth : String) (fi' : FileIndex)
    (h : FIInv fi) (hr : removeFileIdx fi ridx = some (pth, fi')) : FIInv fi' := by
  obtain ⟨h1, h2, h3⟩ := h
  unfold removeFileIdx at hr
  cases hfind : fi.files.find? (fun f => f.id == ridx) with
  | none => rw [hfind] at hr; simp at hr
  | some target =>
    rw [hfind] at hr
    simp only [Option.some.injEq, Prod.mk.injEq] at hr
    obtain ⟨hpth, hfi'⟩ := hr
    have htid : target.id = ridx := by
      have := List.find?_some hfind
      simpa using this
    have htmem : target ∈ fi.files := List.mem_of_find?_eq_some hfind
    have hridx : ridx < fi.files.length := by
      have : target.id ∈ fi.files.map (fun f => f.id) := List.mem_map_of_mem _ htmem
      rw [h1, htid] at this
      exact List.mem_range.mp this
    have herase : (fi.files.eraseP (fun f => f.id == ridx)).length = fi.files.length - 1 := by
      have : (fun f : FileEntry => f.id == ridx) target = true := by simp [htid]
      exact List.length_eraseP_of_mem htmem this
    have hmapid := range_remove ridx fi.files 0
      (by rw [h1, List.range_eq_range']) (Nat.zero_le _) (by omega)
    refine ⟨?_, ?_, ?_⟩
    · rw [← hfi']
      simp only [List.length_map, herase]
      rw [hmapid, List.range_eq_range']
    · rw [← hfi']
      rw [List.pairwise_map]
      have hsub : List.Sublist (fi.files.eraseP (fun f => f.id == ridx)) fi.files :=
        List.eraseP_sublist fi.files
      have hpw := h2.sublist hsub
      exact hpw.imp (by intro a b hab; rw [dec_path, dec_path]; exact hab)
    · rw [← hfi']
      simp only [List.length_map, herase, h3]

/-- Every file-index table reachable by `add_object` insertions and
`sync_blender_deletions` removals satisfies the dense-id / unique-path /
accurate-count invariant. -/
theorem fi_reachable_inv {fi : FileIndex} (h : FIReachable fi) : FIInv fi := by
  induction h with
  | empty => exact ⟨rfl, List.Pairwise.nil, rfl⟩
  | step _ hstep ih =>
    cases hstep with
    | resolve p => exact FIInv_resolve _ p ih
    | remove ridx pth fi2 hrem => exact FIInv_remove _ ridx pth _ ih hrem

/-- The per-type boolean attributes `add_object` writes on an object entry
(lines 492-536; entity-only attributes and the `CastShadows` user variable
are folded into the same record since `add_object` rewrites them all from
the export settings on every call). -/
structure ObjFlags where
  collides : Bool
  castShadows : Bool
  isOccluder : Bool
  culledByDistance : Bool
  culledByFog : Bool
deriving DecidableEq, Repr

/-- One `<StaticObject .../>` or `<Entity .../>` element of the `Objects`
table, with the attributes the synchronization logic reads or writes. -/
structure MapObject where
  name : String
  objId : Nat
  creStamp : Nat
  modStamp : Nat
  worldPos : String
  rotation : String
  scale : String
  fileIndex : Nat
  flags : ObjFlags
deriving DecidableEq, Repr

/-- In-place mutation of the first element satisfying the predicate, as the
source does by mutating the element it found by iterate-and-break. -/
def updateFirst (pred : α → Bool) (g : α → α) : List α → List α
  | [] => []
  | x :: xs => if pred x then g x :: xs else x :: updateFirst pred g xs

/-- `lastID` computation of `add_object` (lines 417-423): the last object
entry's `ID` plus one, or a per-type legacy base constant when the object
table is empty. -/
def lastObjId (isEnt : Bool) (objects : List MapObject) : Nat :=
  match objects.getLast? with
  | some o => o.objId + 1
  | none => if isEnt then 268435459 else 285212672

/-- The attribute writes `add_object` performs on an existing entry
(lines 486-536): name, modification stamp, transform strings, re-resolved
file index and flags are rewritten; `ID` and `CreStamp` are not touched. -/
def applyUpdate (now : Nat) (pos rot scl : String) (fidx : Nat) (flags : ObjFlags)
    (o : MapObject) : MapObject :=
  { o with name := o.name, modStamp := now, worldPos := pos, rotation := rot,
           scale := scl, fileIndex := fidx, flags := flags }

/-- The upsert-by-name of `add_object` (lines 459-539): the first entry of
the type's object table whose `Name` matches is updated in place; otherwise
a new element with `ID = lastID` and `CreStamp = now` is appended. -/
def upsertObject (isEnt : Bool) (objects : List MapObject) (name : String)
    (pos rot scl : String) (flags : ObjFlags) (fidx : Nat) (now : Nat) : List MapObject :=
  if objects.any (fun o => o.name == name) then
    updateFirst (fun o => o.name == name) (applyUpdate now pos rot scl fidx flags) objects
  else
    objects ++ [⟨name, lastObjId isEnt objects, now, now, pos, rot, scl, fidx, flags⟩]

/-- One `<Asset DAEpath=... Uses=... DDSpath=.../>` record of
`exportscript_asset_tracking.xml`.  A missing `DDSpath` attribute is
modelled as the empty list (the attribute is written by
`delete_unused_textures`; the deletion branch of `sync_blender_deletions`
reads it only for assets whose textures were exported). -/
structure Asset where
  daePath : String
  uses : Nat
  dds : List String
deriving DecidableEq, Repr

/-- `get_asset_xml_entry` (lines 547-563): looks the canonical `.dae` short
path up in the asset tracking document and appends a fresh record with
`Uses = "0"` when absent. -/
def getAssetEntry (assets : List Asset) (shortPath : String) : List Asset :=
  if assets.any (fun a => a.daePath == shortPath) then assets
  else assets ++ [⟨shortPath, 0, []⟩]

/-- The `Uses` increment of `add_object` (lines 411-412), applied to the
record `get_asset_xml_entry` found or created for the same mesh.  It runs
only when a *new* file-index entry was created, and only in MULTI mode. -/
def incrementUses (assets : List Asset) (shortPath : String) : List Asset :=
  updateFirst (fun a => a.daePath == shortPath) (fun a => { a with uses := a.uses + 1 }) assets

/-- A map section (`Blender@HPL3EXPORT`): its file-index table and its
object table. -/
structure MapSection where
  fi : FileIndex
  objects : List MapObject
deriving DecidableEq, Repr

/-- The in-memory documents an export pass mutates: the map section and the
asset tracking list. -/
structure ExportState where
  sec : MapSection
  assets : List Asset
deriving DecidableEq, Repr

/-- Per-object input to the pass: the canonicalized short path of the mesh
file (after `os.path.normpath`, backslash normalization and stripping up to
the `SOMA/` marker), the sanitized object name, the serialized transform
strings, the flag set, and whether the external bake/convert tooling
succeeded for this object's batch. -/
structure ObjInput where
  shortPath : String
  name : String
  pos : String
  rot : String
  scl : String
  flags : ObjFlags
  toolOk : Bool
deriving DecidableEq, Repr

/-- `add_object` (lines 348-541), restricted to the static-object pipeline
where the file-index path and the ledger path coincide (`is_ent` then only
selects the legacy base id): resolve the file index (inserting and bumping
`NumOfFiles` on a miss, and in MULTI mode bumping the ledger `Uses` of the
current mesh exactly when a new index entry was created), then upsert the
object entry with the resolved index. -/
def add_object (multiMode isEnt : Bool) (now : Nat) (st : ExportState)
    (o : ObjInput) : ExportState :=
  let r := resolveIndex st.sec.fi o.shortPath
  let assets' := if r.2.2 && multiMode then incrementUses st.assets o.shortPath else st.assets
  let objs' := upsertObject isEnt st.sec.objects o.name o.pos o.rot o.scl o.flags r.1 now
  ⟨⟨r.2.1, objs'⟩, assets'⟩

/-- The per-object body of the MULTI-mode loop of `export_objects`
(lines 272-292): `get_asset_xml_entry` followed by `add_object`. -/
def exportObjectStep (multiMode isEnt : Bool) (now : Nat) (st : ExportState)
    (o : ObjInput) : ExportState :=
  add_object multiMode isEnt now ⟨st.sec, getAssetEntry st.assets o.shortPath⟩ o

/-- The single failure an export pass can abort with: `ExportError`, raised
when the external bake tooling fails (line 1351). -/
inductive ExportErr where
  | externalTool
deriving DecidableEq, Repr

/-- The export pass of `export_objects`: process each selected object,
aborting the whole pass with `ExportError` when the external tooling fails
for an object.  (In the source the bake failure surfaces after the loop's
map mutations; the surviving in-memory mutations are irrelevant because
`execute` discards them on error.) -/
def exportPass (multiMode isEnt : Bool) (now : Nat) :
    ExportState → List ObjInput → Except ExportErr ExportState
  | st, [] => .ok st
  | st, o :: rest =>
    if o.toolOk then
      exportPass multiMode isEnt now (exportObjectStep multiMode isEnt now st o) rest
    else .error .externalTool

/-- The two on-disk documents: the parsed map section file and the parsed
asset tracking file. -/
structure Disk where
  mapDoc : MapSection
  ledgerDoc : List Asset
deriving DecidableEq, Repr

/-- The commit logic of `execute` (lines 2213-2227): run the pass on the
parsed documents; only when no `ExportError` was raised are both documents
serialized back; otherwise neither file is written. -/
def execute (multiMode isEnt : Bool) (now : Nat) (pre : Disk)
    (objs : List ObjInput) : Disk :=
  match exportPass multiMode isEnt now ⟨pre.mapDoc, pre.ledgerDoc⟩ objs with
  | .error _ => pre
  | .ok st => ⟨st.sec, st.assets⟩

/-- `re.sub(r'ent$', 'dae', p)` (line 2080): rewrite a trailing `ent` to
`dae` so an entity's index path keys the ledger's `.dae` record. -/
def entToDae (p : String) : String :=
  if p.endsWith "ent" then p.dropRight 3 ++ "dae" else p

/-- `re.sub(r'.dae', '.msh', p)` (line 2091): every occurrence of any
character followed by `dae` becomes `.msh` (the regex dot is unescaped in
the source). -/
def mshChars : List Char → List Char
  | _ :: 'd' :: 'a' :: 'e' :: rest => '.' :: 'm' :: 's' :: 'h' :: mshChars rest
  | c :: rest => c :: mshChars rest
  | [] => []

/-- The `.msh` companion path derived from a `.dae` path (line 2091). -/
def mshOf (p : String) : String := ⟨mshChars p.data⟩

/-- `delete_by_shortname` / `delete_assets` (lines 1954-1981): attempt to
delete each file; a missing file counts as success, any other failure puts
the file on the returned leftover list.  `failSet` is the set of files
whose removal the OS refuses. -/
def delete_assets (failSet : List String) (names : List String) : List String :=
  names.filter (fun n => failSet.contains n)

/-- The in-use check of `sync_blender_deletions` (lines 2050-2053): some
object entry not already queued for removal references the same file index
under a different name.  Queued entries are identified by their position in
the object table, matching the source's element-identity membership test. -/
def entryInUse (objs : List MapObject) (toRemove : List Nat) (ridx : Nat)
    (name : String) : Bool :=
  (List.range objs.length).any (fun j =>
    !(toRemove.contains j) &&
    (match objs.get? j with
     | some e2 => e2.fileIndex == ridx && e2.name != name
     | none => false))

/-- The final loop of `sync_blender_deletions` (lines 2102-2103): erase the
queued entries (identified by position) from the object table. -/
def removeMarked (objs : List MapObject) (toRemove : List Nat) : List MapObject :=
  (objs.enum.filter (fun x => !(toRemove.contains x.1))).map (fun x => x.2)

/-- State threaded through the `sync_blender_deletions` loop: the section's
file index and object table, the queued removals, the asset ledger, and the
files actually deleted from disk so far. -/
structure SyncState where
  fi : FileIndex
  objs : List MapObject
  toRemove : List Nat
  assets : List Asset
  deletedFiles : List String
deriving DecidableEq, Repr

/-- Outcome of one iteration of the `sync_blender_deletions` loop body:
either fall through to the next object entry with an updated state, or end
the whole function (its early `return 1`, or the modelled crash `none`). -/
inductive SyncIter where
  | cont (st : SyncState)
  | stop (r : Option (SyncState × Nat))

/-- One iteration of the `sync_blender_deletions` loop body
(lines 2037-2101) for the entry at position `i`.  `live` is the set of
sanitized names of the objects still present in the Blender scene;
`failSet` the files whose deletion fails.  An entry whose name is live is
skipped; an orphan is queued; if its file index is still referenced by an
unqueued entry nothing else happens; otherwise the index entry is removed
with dense renumbering of both tables, and the ledger record for the
geometry path, when present, either has its files deleted and is erased
(at `Uses` 1 or 0 — returning early with code 1, before erasing any queued
rows, if some file could not be deleted) or has its `Uses` decremented.
`.stop none` models the uncaught exception raised when the removed index
is absent from the file-index table (`files.remove(None)`). -/
def syncVisit (isEnt : Bool) (live failSet : List String) (i : Nat)
    (entry : MapObject) (st : SyncState) : SyncIter :=
  if live.contains entry.name then .cont st
  else
    let ridx := entry.fileIndex
    let toRemove' := st.toRemove ++ [i]
    if entryInUse st.objs toRemove' ridx entry.name then
      .cont { st with toRemove := toRemove' }
    else
      match removeFileIdx st.fi ridx with
      | none => .stop none
      | some (daePathRaw, fi') =>
        let objs' := st.objs.map (fun o =>
          if ridx < o.fileIndex then { o with fileIndex := o.fileIndex - 1 } else o)
        let daeKey := if isEnt then entToDae daePathRaw else daePathRaw
        match st.assets.find? (fun a => a.daePath == daeKey) with
        | none => .cont { st with fi := fi', objs := objs', toRemove := toRemove' }
        | some a =>
          if a.uses == 1 || a.uses == 0 then
            let ftd := a.dds ++ [a.daePath, mshOf a.daePath]
            let leftover := delete_assets failSet ftd
            let deleted := ftd.filter (fun n => !(failSet.contains n))
            let st' : SyncState :=
              ⟨fi', objs', toRemove', st.assets.eraseP (fun x => x.daePath == daeKey),
               st.deletedFiles ++ deleted⟩
            if leftover.isEmpty then .cont st' else .stop (some (st', 1))
          else
            let assets' := updateFirst (fun x => x.daePath == daeKey)
              (fun x => { x with uses := x.uses - 1 }) st.assets
            .cont { st with fi := fi', objs := objs', toRemove := toRemove', assets := assets' }

/-- The end of `sync_blender_deletions` (lines 2102-2105): erase the queued
object rows and return 0. -/
def finalizeSync (st : SyncState) : SyncState :=
  { st with objs := removeMarked st.objs st.toRemove }

/-- The loop of `sync_blender_deletions` over the object table, position by
position; the fuel argument is the (constant) table length, so the loop
visits every position exactly once. -/
def syncLoop (isEnt : Bool) (live failSet : List String) :
    Nat → Nat → SyncState → Option (SyncState × Nat)
  | _, 0, st => some (finalizeSync st, 0)
  | i, fuel + 1, st =>
    match st.objs.get? i with
    | none => some (finalizeSync st, 0)
    | some entry =>
      match syncVisit isEnt live failSet i entry st with
      | .cont st' => syncLoop isEnt live failSet (i + 1) fuel st'
      | .stop r => r

/-- `sync_blender_deletions` on a section's tables and the asset ledger. -/
def sync_blender_deletions (isEnt : Bool) (live failSet : List String)
    (fi : FileIndex) (objs : List MapObject) (assets : List Asset) :
    Option (SyncState × Nat) :=
  syncLoop isEnt live failSet 0 objs.length ⟨fi, objs, [], assets, []⟩

/-- The texture-retention loop of `delete_unused_textures` (lines 2008-2018)
for one matched ledger record: walk the old `DDSpath` list; a texture that
case-insensitively appears in the current (possibly already extended) new
list is kept as-is; otherwise it is deleted, and on deletion failure it is
appended back to the list.  Returns the final `DDSpath` list and the files
actually deleted. -/
def retainFailed (failSet : List String) (oldSet newSet : List String) :
    List String × List String :=
  oldSet.foldl (fun acc texture =>
    if acc.1.any (fun e => e.toLower == texture.toLower) then acc
    else if failSet.contains texture then (acc.1 ++ [texture], acc.2)
    else (acc.1, acc.2 ++ [texture])) (newSet, [])

/-! ## Claim theorems -/

/-- C9: Name sanitization — replacing every run of non-alphanumeric
characters with a single underscore — is idempotent: for every input
string `x`, `sanitize (sanitize x) = sanitize x`. -/
theorem c9_sanitize_idempotent (x : String) : sanitize (sanitize x) = sanitize x := by
  show (⟨sanitizeAux false (sanitizeAux false x.data)⟩ : String) = ⟨sanitizeAux false x.data⟩
  rw [sanitizeAux_idem x.data false]

/-- C4: For every state of the map file index reachable from an empty index
by any sequence of resolve (lookup-or-insert) and remove operations, there
is at most one entry per distinct path and the entry ids form the
contiguous set `{0, ..., n-1}` with no gaps, where `n` is the number of
entries. -/
theorem c4_dense_ids_unique_paths {fi : FileIndex} (h : FIReachable fi) :
    (∀ f1 ∈ fi.files, ∀ f2 ∈ fi.files, f1.path = f2.path → f1 = f2) ∧
    (∀ k, (∃ f ∈ fi.files, f.id = k) ↔ k < fi.files.length) := by
  obtain ⟨h1, h2, _⟩ := fi_reachable_inv h
  constructor
  · intro f1 hf1 f2 hf2 hp
    by_contra hne
    have hsymm : Symmetric (fun a b : FileEntry => a.path ≠ b.path) := by
      intro a b hab
      exact hab.symm
    exact (h2.forall hsymm hf1 hf2 hne) hp
  · intro k
    constructor
    · rintro ⟨f, hf, rfl⟩
      have hm : f.id ∈ fi.files.map (fun f => f.id) := List.mem_map_of_mem _ hf
      rw [h1] at hm
      exact List.mem_range.mp hm
    · intro hk
      have hm : k ∈ fi.files.map (fun f => f.id) := by
        rw [h1]; exact List.mem_range.mpr hk
      obtain ⟨f, hf, hfk⟩ := List.mem_map.mp hm
      exact ⟨f, hf, hfk⟩

/-- Witness for C4 at a concrete reachable index state. -/
theorem c4_witness :
    (∀ f1 ∈ (⟨1, [⟨0, "a"⟩]⟩ : FileIndex).files,
      ∀ f2 ∈ (⟨1, [⟨0, "a"⟩]⟩ : FileIndex).files, f1.path = f2.path → f1 = f2) ∧
    (∀ k, (∃ f ∈ (⟨1, [⟨0, "a"⟩]⟩ : FileIndex).files, f.id = k) ↔
      k < (⟨1, [⟨0, "a"⟩]⟩ : FileIndex).files.length) := by
  apply c4_dense_ids_unique_paths
  have hstep := FIStep.resolve ⟨0, []⟩ "a"
  have : (resolveIndex ⟨0, []⟩ "a").2.1 = ⟨1, [⟨0, "a"⟩]⟩ := by rfl
  rw [this] at hstep
  exact FIReachable.step FIReachable.empty hstep

/-- C10: For every file-index table reachable from an empty section by any
sequence of index insertions (`add_object`) and index removals
(`sync_blender_deletions`), the section's `NumOfFiles` attribute equals the
number of `File` entries in the table: insertion increments it by exactly 1
and removal decrements it by exactly 1. -/
theorem c10_numOfFiles_accurate {fi : FileIndex} (h : FIReachable fi) :
    fi.numOfFiles = fi.files.length ∧
    (∀ p, findPath fi.files p = none →
      (resolveIndex fi p).2.1.numOfFiles = fi.numOfFiles + 1 ∧
      (resolveIndex fi p).2.1.files.length = fi.files.length + 1) ∧
    (∀ ridx pth fi', removeFileIdx fi ridx = some (pth, fi') →
      fi'.numOfFiles + 1 = fi.numOfFiles ∧ fi'.files.length + 1 = fi.files.length) := by
  obtain ⟨h1, _, h3⟩ := fi_reachable_inv h
  refine ⟨h3, ?_, ?_⟩
  · intro p hp
    unfold resolveIndex
    rw [hp]
    simp
  · intro ridx pth fi' hr
    unfold removeFileIdx at hr
    cases hfind : fi.files.find? (fun f => f.id == ridx) with
    | none => rw [hfind] at hr; simp at hr
    | some target =>
      rw [hfind] at hr
      simp only [Option.some.injEq, Prod.mk.injEq] at hr
      obtain ⟨-, hfi'⟩ := hr
      have htmem : target ∈ fi.files := List.mem_of_find?_eq_some hfind
      have htid := List.find?_some hfind
      have herase : (fi.files.eraseP (fun f => f.id == ridx)).length = fi.files.length - 1 :=
        List.length_eraseP_of_mem htmem htid
      have hpos : 0 < fi.files.length := List.length_pos_of_mem htmem
      constructor
      · rw [← hfi', h3]
        simp only
        omega
      · rw [← hfi']
        simp only [List.length_map, herase]
        omega

/-- Witness for C10 at a concrete reachable index state. -/
theorem c10_witness :
    ((⟨1, [⟨0, "a"⟩]⟩ : FileIndex).numOfFiles = (⟨1, [⟨0, "a"⟩]⟩ : FileIndex).files.length ∧
    (∀ p, findPath (⟨1, [⟨0, "a"⟩]⟩ : FileIndex).files p = none →
      (resolveIndex ⟨1, [⟨0, "a"⟩]⟩ p).2.1.numOfFiles = (⟨1, [⟨0, "a"⟩]⟩ : FileIndex).numOfFiles + 1 ∧
      (resolveIndex ⟨1, [⟨0, "a"⟩]⟩ p).2.1.files.length = (⟨1, [⟨0, "a"⟩]⟩ : FileIndex).files.length + 1) ∧
    (∀ ridx pth fi', removeFileIdx ⟨1, [⟨0, "a"⟩]⟩ ridx = some (pth, fi') →
      fi'.numOfFiles + 1 = (⟨1, [⟨0, "a"⟩]⟩ : FileIndex).numOfFiles ∧
      fi'.files.length + 1 = (⟨1, [⟨0, "a"⟩]⟩ : FileIndex).files.length)) := by
  apply c10_numOfFiles_accurate
  have hstep := FIStep.resolve ⟨0, []⟩ "a"
  have : (resolveIndex ⟨0, []⟩ "a").2.1 = ⟨1, [⟨0, "a"⟩]⟩ := by rfl
  rw [this] at hstep
  exact FIReachable.step FIReachable.empty hstep

/-- C6 counterexample: on the (unreachable, but quantified-over by the
claim) index state whose entries are listed with ids out of ascending
order, `resolve` of a fresh path inserts `last id + 1`, not
`max id + 1`. -/
theorem c6_counterexample :
    (resolveIndex ⟨2, [⟨1, "a"⟩, ⟨0, "b"⟩]⟩ "c").1 = 1 ∧
    ((⟨2, [⟨1, "a"⟩, ⟨0, "b"⟩]⟩ : FileIndex).files.map (fun f => f.id)).max? = some 1 ∧
    (resolveIndex ⟨2, [⟨1, "a"⟩, ⟨0, "b"⟩]⟩ "c").1 ≠ 1 + 1 := by
  refine ⟨rfl, rfl, ?_⟩
  decide

/-- C6 (amended to index states actually reachable via resolve/remove, on
which ids are stored in ascending order): resolve returns the existing id
when an entry with a string-exactly-equal path is present, and otherwise
inserts a new entry whose id is one greater than every existing id (the id
of the last entry, `max + 1`; `0` when the index is empty) and returns that
id; resolving an already-present path leaves the index unchanged. -/
theorem c6_resolve_amended {fi : FileIndex} (h : FIReachable fi) (p : String) :
    (∀ f ∈ fi.files, f.path = p →
      (resolveIndex fi p).1 = f.id ∧ (resolveIndex fi p).2.1 = fi) ∧
    (findPath fi.files p = none →
      (resolveIndex fi p).2.1.files = fi.files ++ [⟨(resolveIndex fi p).1, p⟩] ∧
      (∀ f ∈ fi.files, f.id < (resolveIndex fi p).1) ∧
      (fi.files = [] → (resolveIndex fi p).1 = 0) ∧
      (fi.files ≠ [] → ∃ f ∈ fi.files, (resolveIndex fi p).1 = f.id + 1)) := by
  obtain ⟨h1, h2, _⟩ := fi_reachable_inv h
  constructor
  · intro f hf hfp
    have hsome : (fi.files.find? (fun g => g.path == p)).isSome := by
      rw [List.find?_isSome]
      exact ⟨f, hf, by simp [hfp]⟩
    cases hfind : fi.files.find? (fun g => g.path == p) with
    | none => rw [hfind] at hsome; simp at hsome
    | some g =>
      have hg : g.path = p := by
        have := List.find?_some hfind
        simpa using this
      have hgmem : g ∈ fi.files := List.mem_of_find?_eq_some hfind
      have hgf : g = f := by
        by_contra hne
        have hsymm : Symmetric (fun a b : FileEntry => a.path ≠ b.path) := by
          intro a b hab
          exact hab.symm
        exact (h2.forall hsymm hgmem hf hne) (hg.trans hfp.symm)
      unfold resolveIndex findPath
      rw [hfind]
      exact ⟨by simp [hgf], rfl⟩
  · intro hnone
    unfold resolveIndex
    rw [hnone]
    cases hfl : fi.files with
    | nil =>
      refine ⟨by simp [hfl], by simp [hfl], fun _ => by simp [hfl], fun hne => absurd rfl hne⟩
    | cons a l =>
      have hne : fi.files ≠ [] := by rw [hfl]; simp
      obtain ⟨m, hm⟩ : ∃ m, fi.files.length = m + 1 := by
        rw [hfl]; exact ⟨l.length, rfl⟩
      have h1' : fi.files.map (fun f => f.id) = List.range' 0 (m + 1) := by
        rw [h1, hm, List.range_eq_range']
      obtain ⟨lastf, hlast, hid⟩ := map_id_range'_getLast h1'
      rw [← hfl]
      rw [hlast]
      simp only [Nat.zero_add] at hid
      refine ⟨rfl, ?_, fun hc => absurd hc hne, ?_⟩
      · intro f hf
        have : f.id ∈ fi.files.map (fun g => g.id) := List.mem_map_of_mem _ hf
        rw [h1, hm] at this
        have := List.mem_range.mp this
        simp only
        omega
      · intro _
        exact ⟨lastf, mem_getLast? hlast, by simp⟩

/-- Witness for C6 at a concrete reachable index state and path. -/
theorem c6_witness :
    (∀ f ∈ (⟨1, [⟨0, "a"⟩]⟩ : FileIndex).files, f.path = "b" →
      (resolveIndex ⟨1, [⟨0, "a"⟩]⟩ "b").1 = f.id ∧
      (resolveIndex ⟨1, [⟨0, "a"⟩]⟩ "b").2.1 = ⟨1, [⟨0, "a"⟩]⟩) ∧
    (findPath (⟨1, [⟨0, "a"⟩]⟩ : FileIndex).files "b" = none →
      (resolveIndex ⟨1, [⟨0, "a"⟩]⟩ "b").2.1.files =
        (⟨1, [⟨0, "a"⟩]⟩ : FileIndex).files ++ [⟨(resolveIndex ⟨1, [⟨0, "a"⟩]⟩ "b").1, "b"⟩] ∧
      (∀ f ∈ (⟨1, [⟨0, "a"⟩]⟩ : FileIndex).files, f.id < (resolveIndex ⟨1, [⟨0, "a"⟩]⟩ "b").1) ∧
      ((⟨1, [⟨0, "a"⟩]⟩ : FileIndex).files = [] → (resolveIndex ⟨1, [⟨0, "a"⟩]⟩ "b").1 = 0) ∧
      ((⟨1, [⟨0, "a"⟩]⟩ : FileIndex).files ≠ [] → ∃ f ∈ (⟨1, [⟨0, "a"⟩]⟩ : FileIndex).files,
        (resolveIndex ⟨1, [⟨0, "a"⟩]⟩ "b").1 = f.id + 1)) := by
  apply c6_resolve_amended
  have hstep := FIStep.resolve ⟨0, []⟩ "a"
  have : (resolveIndex ⟨0, []⟩ "a").2.1 = ⟨1, [⟨0, "a"⟩]⟩ := by rfl
  rw [this] at hstep
  exact FIReachable.step FIReachable.empty hstep

/-- C1: If an export pass aborts with an export error, then neither the map
document nor the asset ledger document is written to disk: both on-disk
files are byte-identical to their pre-pass state (`execute` returns the
pre-pass disk unchanged). -/
theorem c1_no_write_on_error (multiMode isEnt : Bool) (now : Nat) (pre : Disk)
    (objs : List ObjInput) (e : ExportErr)
    (h : exportPass multiMode isEnt now ⟨pre.mapDoc, pre.ledgerDoc⟩ objs = .error e) :
    execute multiMode isEnt now pre objs = pre := by
  unfold execute
  rw [h]

/-- Witness for C1: an export of three objects where the external tooling
fails on the second (Scenario D) leaves both documents untouched. -/
theorem c1_witness :
    execute true false 10
      ⟨⟨⟨1, [⟨0, "C.dae"⟩]⟩,
        [⟨"A", 285212672, 5, 5, "0", "0", "1", 0, ⟨true, true, true, true, true⟩⟩]⟩,
       [⟨"C.dae", 1, []⟩]⟩
      [⟨"C.dae", "A", "0", "0", "1", ⟨true, true, true, true, true⟩, true⟩,
       ⟨"D.dae", "B", "0", "0", "1", ⟨true, true, true, true, true⟩, false⟩,
       ⟨"E.dae", "E", "0", "0", "1", ⟨true, true, true, true, true⟩, true⟩] =
    ⟨⟨⟨1, [⟨0, "C.dae"⟩]⟩,
      [⟨"A", 285212672, 5, 5, "0", "0", "1", 0, ⟨true, true, true, true, true⟩⟩]⟩,
     [⟨"C.dae", 1, []⟩]⟩ :=
  c1_no_write_on_error true false 10 _ _ ExportErr.externalTool rfl

/-- The spec's rebuilt-from-scratch reference count: the number of
placed-object entries of the section whose file-index entry's path equals
the geometry path. -/
def specRefCount (sec : MapSection) (p : String) : Nat :=
  (sec.objects.filter (fun o =>
    match sec.fi.files.find? (fun f => f.id == o.fileIndex) with
    | some f => f.path == p
    | none => false)).length

/-- C2 counterexample: exporting (MULTI mode, from empty documents) two
placed objects that share the geometry path `C.dae` leaves the ledger's
`Uses` at 1 while two placed objects reference the path — the second object
does not raise the count to 2. -/
theorem c2_counterexample :
    exportPass true false 100 ⟨⟨⟨0, []⟩, []⟩, []⟩
      [⟨"C.dae", "A", "0", "0", "1", ⟨true, true, true, true, true⟩, true⟩,
       ⟨"C.dae", "B", "0", "0", "1", ⟨true, true, true, true, true⟩, true⟩] =
      .ok ⟨⟨⟨1, [⟨0, "C.dae"⟩]⟩,
            [⟨"A", 285212672, 100, 100, "0", "0", "1", 0, ⟨true, true, true, true, true⟩⟩,
             ⟨"B", 285212673, 100, 100, "0", "0", "1", 0, ⟨true, true, true, true, true⟩⟩]⟩,
           [⟨"C.dae", 1, []⟩]⟩ ∧
    specRefCount ⟨⟨1, [⟨0, "C.dae"⟩]⟩,
        [⟨"A", 285212672, 100, 100, "0", "0", "1", 0, ⟨true, true, true, true, true⟩⟩,
         ⟨"B", 285212673, 100, 100, "0", "0", "1", 0, ⟨true, true, true, true, true⟩⟩]⟩
      "C.dae" = 2 ∧
    (1 : Nat) ≠ 2 :=
  ⟨rfl, rfl, by decide⟩

/-- C2 (amended): the ledger `Uses` count is incremented only when a new
file-index entry is created for the geometry path; adding a placed object
whose geometry path is already present in the file index leaves the asset
ledger unchanged, so a second placed object referencing an already-indexed
path leaves the count at 1 instead of raising it to 2. -/
theorem c2_no_increment_when_indexed (multiMode isEnt : Bool) (now : Nat)
    (st : ExportState) (o : ObjInput) (i : Nat)
    (h : findPath st.sec.fi.files o.shortPath = some i) :
    (add_object multiMode isEnt now st o).assets = st.assets := by
  simp [add_object, resolveIndex, h]

/-- Witness for C2 at a concrete already-indexed state. -/
theorem c2_witness :
    (add_object true false 100
      ⟨⟨⟨1, [⟨0, "C.dae"⟩]⟩, []⟩, [⟨"C.dae", 1, []⟩]⟩
      ⟨"C.dae", "B", "0", "0", "1", ⟨true, true, true, true, true⟩, true⟩).assets =
    [⟨"C.dae", 1, []⟩] :=
  c2_no_increment_when_indexed true false 100 _ _ 0 rfl

theorem updateFirst_append {α : Type} (pred : α → Bool) (g : α → α)
    (pre : List α) (x : α) (post : List α)
    (hpre : ∀ y ∈ pre, pred y = false) (hx : pred x = true) :
    updateFirst pred g (pre ++ x :: post) = pre ++ g x :: post := by
  induction pre with
  | nil => simp [updateFirst, hx]
  | cons a as ih =>
    have ha : pred a = false := hpre a (List.mem_cons_self _ _)
    simp only [List.cons_append, updateFirst, ha, Bool.false_eq_true, if_false]
    rw [List.append_eq, ih (fun y hy => hpre y (List.mem_cons_of_mem a hy))]

/-- C8: for an object whose name already has an entry in its object-type
partition, the upsert updates the transform, flags, modification timestamp
and re-resolved file index in place, leaving the entry's `ID` and creation
timestamp unchanged; for a name with no existing entry, a new entry is
created with `CreStamp = now` and an id one greater than the last existing
entry's id (or the legacy base constant for an empty object table). -/
theorem c8_upsert_semantics (multiMode isEnt : Bool) (now : Nat)
    (st : ExportState) (o : ObjInput) :
    (∀ pre x post, st.sec.objects = pre ++ x :: post → x.name = o.name →
      (∀ y ∈ pre, y.name ≠ o.name) →
      (add_object multiMode isEnt now st o).sec.objects =
        pre ++ { x with modStamp := now, worldPos := o.pos, rotation := o.rot,
                        scale := o.scl,
                        fileIndex := (resolveIndex st.sec.fi o.shortPath).1,
                        flags := o.flags } :: post) ∧
    ((∀ y ∈ st.sec.objects, y.name ≠ o.name) →
      (add_object multiMode isEnt now st o).sec.objects =
        st.sec.objects ++ [⟨o.name, lastObjId isEnt st.sec.objects, now, now,
          o.pos, o.rot, o.scl, (resolveIndex st.sec.fi o.shortPath).1, o.flags⟩]) ∧
    (st.sec.objects = [] →
      lastObjId isEnt st.sec.objects = if isEnt then 268435459 else 285212672) ∧
    (∀ lst, st.sec.objects.getLast? = some lst →
      lastObjId isEnt st.sec.objects = lst.objId + 1) := by
  refine ⟨?_, ?_, ?_, ?_⟩
  · intro pre x post hsplit hname hpre
    show upsertObject isEnt st.sec.objects o.name o.pos o.rot o.scl o.flags
      (resolveIndex st.sec.fi o.shortPath).1 now = _
    unfold upsertObject
    have hany : st.sec.objects.any (fun ob => ob.name == o.name) = true := by
      rw [hsplit]
      rw [List.any_eq_true]
      exact ⟨x, by simp, by simp [hname]⟩
    rw [if_pos hany, hsplit]
    rw [updateFirst_append _ _ pre x post
      (fun y hy => by simp [hpre y hy]) (by simp [hname])]
    rfl
  · intro hnone
    show upsertObject isEnt st.sec.objects o.name o.pos o.rot o.scl o.flags
      (resolveIndex st.sec.fi o.shortPath).1 now = _
    unfold upsertObject
    have hany : st.sec.objects.any (fun ob => ob.name == o.name) = false := by
      rw [List.any_eq_false]
      intro y hy
      simp [hnone y hy]
    rw [if_neg (by simp [hany])]
  · intro hnil
    unfold lastObjId
    rw [hnil]
    rfl
  · intro lst hlst
    unfold lastObjId
    rw [hlst]

/-- Witness for C8: an in-place update of an existing entry and a fresh
creation on an empty object table. -/
theorem c8_witness :
    (add_object true false 7
      ⟨⟨⟨0, []⟩, [⟨"A", 42, 3, 3, "p", "r", "s", 5, ⟨false, false, false, false, false⟩⟩]⟩, []⟩
      ⟨"C.dae", "A", "0", "0", "1", ⟨true, true, true, true, true⟩, true⟩).sec.objects =
      [⟨"A", 42, 3, 7, "0", "0", "1", 0, ⟨true, true, true, true, true⟩⟩] ∧
    (add_object true false 7 ⟨⟨⟨0, []⟩, []⟩, []⟩
      ⟨"C.dae", "A", "0", "0", "1", ⟨true, true, true, true, true⟩, true⟩).sec.objects =
      [⟨"A", 285212672, 7, 7, "0", "0", "1", 0, ⟨true, true, true, true, true⟩⟩] :=
  ⟨(c8_upsert_semantics true false 7
      ⟨⟨⟨0, []⟩, [⟨"A", 42, 3, 3, "p", "r", "s", 5, ⟨false, false, false, false, false⟩⟩]⟩, []⟩
      ⟨"C.dae", "A", "0", "0", "1", ⟨true, true, true, true, true⟩, true⟩).1
      [] ⟨"A", 42, 3, 3, "p", "r", "s", 5, ⟨false, false, false, false, false⟩⟩ []
      rfl rfl (by simp),
   (c8_upsert_semantics true false 7 ⟨⟨⟨0, []⟩, []⟩, []⟩
      ⟨"C.dae", "A", "0", "0", "1", ⟨true, true, true, true, true⟩, true⟩).2.1
      (by simp)⟩

theorem syncLoop_zero (isEnt : Bool) (live failSet : List String) (i : Nat)
    (st : SyncState) :
    syncLoop isEnt live failSet i 0 st = some (finalizeSync st, 0) := rfl

theorem syncLoop_succ (isEnt : Bool) (live failSet : List String) (i fuel : Nat)
    (st : SyncState) :
    syncLoop isEnt live failSet i (fuel + 1) st =
      match st.objs.get? i with
      | none => some (finalizeSync st, 0)
      | some entry =>
        match syncVisit isEnt live failSet i entry st with
        | .cont st' => syncLoop isEnt live failSet (i + 1) fuel st'
        | .stop r => r := rfl

theorem syncVisit_live (isEnt : Bool) (live failSet : List String) (i : Nat)
    (entry : MapObject) (st : SyncState) (h : live.contains entry.name = true) :
    syncVisit isEnt live failSet i entry st = .cont st := by
  unfold syncVisit
  rw [h]
  simp

theorem syncVisit_shared (isEnt : Bool) (live failSet : List String) (i : Nat)
    (entry : MapObject) (st : SyncState)
    (hdead : live.contains entry.name = false)
    (hinuse : entryInUse st.objs (st.toRemove ++ [i]) entry.fileIndex entry.name = true) :
    syncVisit isEnt live failSet i entry st =
      .cont { st with toRemove := st.toRemove ++ [i] } := by
  unfold syncVisit
  simp only [hdead, hinuse]
  simp

theorem syncLoop_skip_all (isEnt : Bool) (live failSet : List String) :
    ∀ (fuel i : Nat) (st : SyncState),
    (∀ j e, i ≤ j → st.objs.get? j = some e → live.contains e.name = true) →
    syncLoop isEnt live failSet i fuel st = some (finalizeSync st, 0) := by
  intro fuel
  induction fuel with
  | zero => intro i st _; rfl
  | succ fuel ih =>
    intro i st h
    rw [syncLoop_succ]
    cases hg : st.objs.get? i with
    | none => rfl
    | some e =>
      simp only [syncVisit_live isEnt live failSet i e st (h i e (Nat.le_refl i) hg)]
      exact ih (i + 1) st (fun j e' hj hg' => h j e' (by omega) hg')

theorem sync_single_orphan_shared_loop (isEnt : Bool) (live failSet : List String)
    (i : Nat) (entry : MapObject) :
    ∀ (fuel k : Nat) (st : SyncState),
    st.toRemove = [] →
    st.objs.get? i = some entry →
    live.contains entry.name = false →
    (∀ j e, j ≠ i → st.objs.get? j = some e → live.contains e.name = true) →
    entryInUse st.objs [i] entry.fileIndex entry.name = true →
    k ≤ i → i < k + fuel →
    syncLoop isEnt live failSet k fuel st =
      some (⟨st.fi, removeMarked st.objs [i], [i], st.assets, st.deletedFiles⟩, 0) := by
  intro fuel
  induction fuel with
  | zero => intro k st _ _ _ _ _ hk hlt; omega
  | succ fuel ih =>
    intro k st htr hget hdead hothers hinuse hk hlt
    obtain ⟨sfi, sobjs, str, sassets, sdel⟩ := st
    simp only at htr hget hothers hinuse ⊢
    subst htr
    rw [syncLoop_succ]
    by_cases hki : k = i
    · subst hki
      simp only [hget]
      simp only [syncVisit_shared isEnt live failSet k entry ⟨sfi, sobjs, [], sassets, sdel⟩
        hdead (by simpa using hinuse)]
      exact syncLoop_skip_all isEnt live failSet fuel (k + 1)
        ⟨sfi, sobjs, [] ++ [k], sassets, sdel⟩
        (fun j e' hj hg' => hothers j e' (by omega) hg')
    · have hklt : k < i := by omega
      have hil : i < sobjs.length := by
        rcases List.get?_eq_some.mp hget with ⟨h', -⟩
        exact h'
      cases hg : sobjs.get? k with
      | none =>
        have := List.get?_eq_none.mp hg
        omega
      | some e =>
        simp only [hg]
        simp only [syncVisit_live isEnt live failSet k e ⟨sfi, sobjs, [], sassets, sdel⟩
          (hothers k e hki hg)]
        exact ih (k + 1) ⟨sfi, sobjs, [], sassets, sdel⟩ rfl hget hdead hothers hinuse
          (by omega) (by omega)

/-- C3 (amended): when reconciliation removes an orphaned placed-object
entry whose file-index id is still referenced by some non-orphaned entry,
the orphan's registry row is removed, the geometry's file-index entry is
left intact, no derived files are deleted, and the asset ledger is left
entirely unchanged (in particular it is **not** decremented). -/
theorem c3_shared_orphan (isEnt : Bool) (live failSet : List String)
    (fi : FileIndex) (objs : List MapObject) (assets : List Asset)
    (i : Nat) (entry : MapObject)
    (hget : objs.get? i = some entry)
    (hdead : live.contains entry.name = false)
    (hothers : ∀ j e, j ≠ i → objs.get? j = some e → live.contains e.name = true)
    (j : Nat) (keeper : MapObject) (hji : j ≠ i) (hkeep : objs.get? j = some keeper)
    (hkfi : keeper.fileIndex = entry.fileIndex) (hkname : keeper.name ≠ entry.name) :
    sync_blender_deletions isEnt live failSet fi objs assets =
      some (⟨fi, removeMarked objs [i], [i], assets, []⟩, 0) := by
  unfold sync_blender_deletions
  have hil : i < objs.length := by
    rcases List.get?_eq_some.mp hget with ⟨h', -⟩
    exact h'
  have hjl : j < objs.length := by
    rcases List.get?_eq_some.mp hkeep with ⟨h', -⟩
    exact h'
  apply sync_single_orphan_shared_loop isEnt live failSet i entry objs.length 0
    ⟨fi, objs, [], assets, []⟩ rfl hget hdead hothers ?_ (Nat.zero_le i) (by omega)
  unfold entryInUse
  rw [List.any_eq_true]
  refine ⟨j, List.mem_range.mpr hjl, ?_⟩
  simp only [hkeep, hkfi]
  have hcon : (([i] : List Nat).contains j) = false := by
    simp only [List.contains_cons, List.contains_nil, Bool.or_false]
    exact beq_false_of_ne (by omega)
  rw [hcon]
  simp [hkname]

/-- C3 counterexample: Scenario B (two objects share `C.dae` with ledger
count 2; the orphan's index is still referenced by the live object).
Reconciliation removes the orphan row, keeps the file-index entry and
deletes nothing — but the ledger entry keeps `Uses = 2`: it is not
decremented to 1 as the claim states. -/
theorem c3_counterexample :
    sync_blender_deletions false ["B"] []
      ⟨1, [⟨0, "C.dae"⟩]⟩
      [⟨"B", 285212672, 1, 1, "0", "0", "1", 0, ⟨true, true, true, true, true⟩⟩,
       ⟨"A", 285212673, 1, 1, "0", "0", "1", 0, ⟨true, true, true, true, true⟩⟩]
      [⟨"C.dae", 2, ["t.dds"]⟩] =
      some (⟨⟨1, [⟨0, "C.dae"⟩]⟩,
             [⟨"B", 285212672, 1, 1, "0", "0", "1", 0, ⟨true, true, true, true, true⟩⟩],
             [1], [⟨"C.dae", 2, ["t.dds"]⟩], []⟩, 0) ∧
    (2 : Nat) ≠ 1 :=
  ⟨rfl, by decide⟩

/-- Witness for C3 at the concrete Scenario-B state. -/
theorem c3_witness :
    sync_blender_deletions false ["B"] []
      ⟨1, [⟨0, "C.dae"⟩]⟩
      [⟨"B", 285212672, 2, 2, "0", "0", "1", 0, ⟨true, true, true, true, true⟩⟩,
       ⟨"A", 285212673, 2, 2, "0", "0", "1", 0, ⟨true, true, true, true, true⟩⟩]
      [⟨"C.dae", 2, ["t.dds"]⟩] =
      some (⟨⟨1, [⟨0, "C.dae"⟩]⟩,
             [⟨"B", 285212672, 2, 2, "0", "0", "1", 0, ⟨true, true, true, true, true⟩⟩],
             [1], [⟨"C.dae", 2, ["t.dds"]⟩], []⟩, 0) := by
  have h := c3_shared_orphan false ["B"] []
    ⟨1, [⟨0, "C.dae"⟩]⟩
    [⟨"B", 285212672, 2, 2, "0", "0", "1", 0, ⟨true, true, true, true, true⟩⟩,
     ⟨"A", 285212673, 2, 2, "0", "0", "1", 0, ⟨true, true, true, true, true⟩⟩]
    [⟨"C.dae", 2, ["t.dds"]⟩] 1
    ⟨"A", 285212673, 2, 2, "0", "0", "1", 0, ⟨true, true, true, true, true⟩⟩
    rfl rfl ?_ 0
    ⟨"B", 285212672, 2, 2, "0", "0", "1", 0, ⟨true, true, true, true, true⟩⟩
    (by decide) rfl rfl (by decide)
  · exact h
  · intro j e hj hg
    rcases j with _ | _ | n
    · injection hg with he; rw [← he]; rfl
    · exact absurd rfl hj
    · simp at hg

theorem syncLoop_reach (isEnt : Bool) (live failSet : List String) (i : Nat) :
    ∀ (fuel k : Nat) (st : SyncState),
    (∀ j e, k ≤ j → j < i → st.objs.get? j = some e → live.contains e.name = true) →
    k ≤ i → i ≤ k + fuel →
    syncLoop isEnt live failSet k fuel st =
      syncLoop isEnt live failSet i (k + fuel - i) st := by
  intro fuel
  induction fuel with
  | zero =>
    intro k st _ hk hle
    have hki : k = i := by omega
    subst hki
    have hz : k + 0 - k = 0 := by omega
    rw [hz]
  | succ fuel ih =>
    intro k st h hk hle
    by_cases hki : k = i
    · subst hki
      congr 1
      omega
    · have hklt : k < i := by omega
      rw [syncLoop_succ]
      cases hg : st.objs.get? k with
      | none =>
        have hlen : st.objs.length ≤ k := List.get?_eq_none.mp hg
        cases hfc : k + (fuel + 1) - i with
        | zero => rfl
        | succ m =>
          rw [syncLoop_succ]
          have hgi : st.objs.get? i = none := List.get?_eq_none.mpr (by omega)
          rw [hgi]
      | some e =>
        simp only [syncVisit_live isEnt live failSet k e st (h k e (Nat.le_refl k) hklt hg)]
        rw [ih (k + 1) st (fun j e' hj hji hg' => h j e' (by omega) hji hg') (by omega) (by omega)]
        congr 1
        omega

theorem filter_contains_eq_nil {failSet l : List String}
    (h : ∀ n ∈ l, failSet.contains n = false) :
    delete_assets failSet l = [] := by
  unfold delete_assets
  rw [List.filter_eq_nil_iff]
  intro n hn
  simp only [h n hn]
  exact Bool.false_ne_true

theorem filter_not_contains_eq_self {failSet l : List String}
    (h : ∀ n ∈ l, failSet.contains n = false) :
    l.filter (fun n => !(failSet.contains n)) = l := by
  rw [List.filter_eq_self]
  intro n hn
  simp only [h n hn]
  rfl

theorem syncVisit_last_ok (isEnt : Bool) (live failSet : List String) (i : Nat)
    (entry : MapObject) (st : SyncState) (dae : String) (fi' : FileIndex) (a : Asset)
    (hdead : live.contains entry.name = false)
    (hinuse : entryInUse st.objs (st.toRemove ++ [i]) entry.fileIndex entry.name = false)
    (hrem : removeFileIdx st.fi entry.fileIndex = some (dae, fi'))
    (hfind : st.assets.find? (fun x => x.daePath == (if isEnt then entToDae dae else dae)) = some a)
    (huses : (a.uses == 1 || a.uses == 0) = true)
    (hok : ∀ n ∈ a.dds ++ [a.daePath, mshOf a.daePath], failSet.contains n = false) :
    syncVisit isEnt live failSet i entry st =
      .cont ⟨fi',
        st.objs.map (fun o => if entry.fileIndex < o.fileIndex then
          { o with fileIndex := o.fileIndex - 1 } else o),
        st.toRemove ++ [i],
        st.assets.eraseP (fun x => x.daePath == (if isEnt then entToDae dae else dae)),
        st.deletedFiles ++ (a.dds ++ [a.daePath, mshOf a.daePath])⟩ := by
  unfold syncVisit
  simp only [hdead, hinuse, hrem, hfind, huses, Bool.false_eq_true, if_false, if_true]
  rw [filter_contains_eq_nil hok, filter_not_contains_eq_self hok]
  simp

theorem syncVisit_last_fail (isEnt : Bool) (live failSet : List String) (i : Nat)
    (entry : MapObject) (st : SyncState) (dae : String) (fi' : FileIndex) (a : Asset)
    (hdead : live.contains entry.name = false)
    (hinuse : entryInUse st.objs (st.toRemove ++ [i]) entry.fileIndex entry.name = false)
    (hrem : removeFileIdx st.fi entry.fileIndex = some (dae, fi'))
    (hfind : st.assets.find? (fun x => x.daePath == (if isEnt then entToDae dae else dae)) = some a)
    (huses : (a.uses == 1 || a.uses == 0) = true)
    (hfail : delete_assets failSet (a.dds ++ [a.daePath, mshOf a.daePath]) ≠ []) :
    syncVisit isEnt live failSet i entry st =
      .stop (some (⟨fi',
        st.objs.map (fun o => if entry.fileIndex < o.fileIndex then
          { o with fileIndex := o.fileIndex - 1 } else o),
        st.toRemove ++ [i],
        st.assets.eraseP (fun x => x.daePath == (if isEnt then entToDae dae else dae)),
        st.deletedFiles ++ (a.dds ++ [a.daePath, mshOf a.daePath]).filter
          (fun n => !(failSet.contains n))⟩, 1)) := by
  unfold syncVisit
  simp only [hdead, hinuse, hrem, hfind, huses, Bool.false_eq_true, if_false, if_true]
  have hie : (delete_assets failSet (a.dds ++ [a.daePath, mshOf a.daePath])).isEmpty = false := by
    cases hda : delete_assets failSet (a.dds ++ [a.daePath, mshOf a.daePath]) with
    | nil => exact absurd hda hfail
    | cons x xs => rfl
  rw [hie]
  simp

theorem dec_obj_name (ridx : Nat) (o : MapObject) :
    (if ridx < o.fileIndex then { o with fileIndex := o.fileIndex - 1 } else o).name
      = o.name := by
  split <;> rfl

theorem eraseP_path_ne {l : List FileEntry} {target : FileEntry} {ridx : Nat}
    (hpw : l.Pairwise (fun a b => a.path ≠ b.path))
    (hfind : l.find? (fun f => f.id == ridx) = some target) :
    ∀ g ∈ l.eraseP (fun f => f.id == ridx), g.path ≠ target.path := by
  have htmem : target ∈ l := List.mem_of_find?_eq_some hfind
  have htpred := List.find?_some hfind
  obtain ⟨b, l₁, l₂, hl₁, hpb, hldecomp, herase⟩ :=
    @List.exists_of_eraseP FileEntry (fun f => f.id == ridx) l target htmem htpred
  have hbt : b = target := by
    rw [hldecomp] at hfind
    rw [List.find?_append] at hfind
    have h₁ : l₁.find? (fun f => f.id == ridx) = none :=
      List.find?_eq_none.mpr (fun x hx => hl₁ x hx)
    rw [h₁, Option.none_or] at hfind
    have hcons := @List.find?_cons_of_pos FileEntry (fun f => f.id == ridx) b l₂ hpb
    rw [hcons] at hfind
    injection hfind
  rw [hbt] at hldecomp
  rw [hldecomp] at hpw
  rw [List.pairwise_append] at hpw
  obtain ⟨hpw₁, hpw₂, hcross⟩ := hpw
  rw [List.pairwise_cons] at hpw₂
  intro g hg hgp
  rw [herase] at hg
  rcases List.mem_append.mp hg with hg₁ | hg₂
  · exact (hcross g hg₁ target (List.mem_cons_self _ _)) hgp
  · exact (hpw₂.1 g hg₂) hgp.symm

/-- C5: Reconciliation of an orphan that is the last placed object
referencing its file-index entry removes that file-index entry, decrements
by 1 the id of every file-index entry whose id is greater than the removed
id, decrements by 1 the `FileIndex` field of every remaining placed-object
entry whose `FileIndex` is greater than the removed id, and triggers
deletion of that geometry's derived files. -/
theorem c5_last_orphan (isEnt : Bool) (live failSet : List String)
    (fi : FileIndex) (objs : List MapObject) (assets : List Asset)
    (i : Nat) (entry : MapObject) (target : FileEntry) (a : Asset)
    (hinv : FIInv fi)
    (hget : objs.get? i = some entry)
    (hdead : live.contains entry.name = false)
    (hothers : ∀ j e, j ≠ i → objs.get? j = some e → live.contains e.name = true)
    (hnoshare : ∀ j e, j ≠ i → objs.get? j = some e → e.fileIndex ≠ entry.fileIndex)
    (hfile : fi.files.find? (fun f => f.id == entry.fileIndex) = some target)
    (hfind : assets.find? (fun x => x.daePath ==
      (if isEnt then entToDae target.path else target.path)) = some a)
    (huses : (a.uses == 1 || a.uses == 0) = true)
    (hok : ∀ n ∈ a.dds ++ [a.daePath, mshOf a.daePath], failSet.contains n = false) :
    ∃ fi', removeFileIdx fi entry.fileIndex = some (target.path, fi') ∧
      sync_blender_deletions isEnt live failSet fi objs assets =
        some (⟨fi',
          removeMarked (objs.map (fun o => if entry.fileIndex < o.fileIndex then
            { o with fileIndex := o.fileIndex - 1 } else o)) [i],
          [i],
          assets.eraseP (fun x => x.daePath ==
            (if isEnt then entToDae target.path else target.path)),
          a.dds ++ [a.daePath, mshOf a.daePath]⟩, 0) ∧
      (∀ f ∈ fi.files, f.id < entry.fileIndex → f ∈ fi'.files) ∧
      (∀ f ∈ fi.files, entry.fileIndex < f.id →
        (⟨f.id - 1, f.path⟩ : FileEntry) ∈ fi'.files) ∧
      fi'.files.length + 1 = fi.files.length ∧
      (∀ f ∈ fi'.files, f.path ≠ target.path) := by
  have hrem : removeFileIdx fi entry.fileIndex =
      some (target.path, ⟨fi.numOfFiles - 1,
        (fi.files.eraseP (fun f => f.id == entry.fileIndex)).map
          (fun f => if entry.fileIndex < f.id then ⟨f.id - 1, f.path⟩ else f)⟩) := by
    unfold removeFileIdx
    rw [hfile]
  refine ⟨_, hrem, ?_, ?_, ?_, ?_, ?_⟩
  · -- the sync run
    have hil : i < objs.length := by
      rcases List.get?_eq_some.mp hget with ⟨h', -⟩
      exact h'
    have hinuse : entryInUse objs ([] ++ [i]) entry.fileIndex entry.name = false := by
      unfold entryInUse
      rw [List.any_eq_false]
      intro j hj
      rw [List.mem_range] at hj
      by_cases hji : j = i
      · subst hji
        simp
      · cases hg : objs.get? j with
        | none => simp [hg]
        | some e =>
          have := hnoshare j e hji hg
          simp [hg, this]
    unfold sync_blender_deletions
    rw [syncLoop_reach isEnt live failSet i objs.length 0 ⟨fi, objs, [], assets, []⟩
      (fun j e _ hji hg => hothers j e (by omega) hg) (Nat.zero_le i) (by omega)]
    obtain ⟨m, hm⟩ : ∃ m, 0 + objs.length - i = m + 1 := ⟨objs.length - i - 1, by omega⟩
    rw [hm, syncLoop_succ]
    simp only [hget]
    simp only [syncVisit_last_ok isEnt live failSet i entry ⟨fi, objs, [], assets, []⟩
      target.path _ a hdead hinuse hrem hfind huses hok]
    rw [syncLoop_skip_all isEnt live failSet m (i + 1)
      ⟨_, objs.map (fun o => if entry.fileIndex < o.fileIndex then
        { o with fileIndex := o.fileIndex - 1 } else o), [] ++ [i], _, _⟩
      ?_]
    · rfl
    · intro j e hj hg
      simp only [List.get?_map] at hg
      cases hg0 : objs.get? j with
      | none => rw [hg0] at hg; simp at hg
      | some e0 =>
        rw [hg0] at hg
        simp only [Option.map_some'] at hg
        injection hg with hgi
        have hname : e.name = e0.name := by
          rw [← hgi]; exact dec_obj_name entry.fileIndex e0
        rw [hname]
        exact hothers j e0 (by omega) hg0
  · -- entries below the removed id survive untouched
    intro f hf hlt
    have hne : ¬ ((fun g : FileEntry => g.id == entry.fileIndex) f = true) := by
      simp only [beq_iff_eq]
      omega
    have hmem : f ∈ fi.files.eraseP (fun g => g.id == entry.fileIndex) :=
      (@List.mem_eraseP_of_neg FileEntry (fun g => g.id == entry.fileIndex) f
        fi.files hne).mpr hf
    have : (if entry.fileIndex < f.id then (⟨f.id - 1, f.path⟩ : FileEntry) else f) = f := by
      rw [if_neg (by omega)]
    exact this ▸ List.mem_map_of_mem _ hmem
  · -- entries above the removed id are decremented
    intro f hf hlt
    have hne : ¬ ((fun g : FileEntry => g.id == entry.fileIndex) f = true) := by
      simp only [beq_iff_eq]
      omega
    have hmem : f ∈ fi.files.eraseP (fun g => g.id == entry.fileIndex) :=
      (@List.mem_eraseP_of_neg FileEntry (fun g => g.id == entry.fileIndex) f
        fi.files hne).mpr hf
    have : (if entry.fileIndex < f.id then (⟨f.id - 1, f.path⟩ : FileEntry) else f) =
        ⟨f.id - 1, f.path⟩ := by
      rw [if_pos hlt]
    exact this ▸ List.mem_map_of_mem _ hmem
  · -- exactly one entry disappears
    have htmem : target ∈ fi.files := List.mem_of_find?_eq_some hfile
    have htpred := List.find?_some hfile
    have hlen := @List.length_eraseP_of_mem FileEntry fi.files target
      (fun f => f.id == entry.fileIndex) htmem htpred
    have hpos : 0 < fi.files.length := List.length_pos_of_mem htmem
    simp only [List.length_map]
    omega
  · -- the removed path is gone
    intro f hf
    simp only [List.mem_map] at hf
    obtain ⟨g, hg, hgf⟩ := hf
    have hgp : f.path = g.path := by
      rw [← hgf]; exact dec_path entry.fileIndex g
    rw [hgp]
    exact eraseP_path_ne hinv.2.1 hfile g hg

/-- Witness for C5: a one-object map whose orphan is the sole referencer of
`C.dae` (id 0, with `D.dae` at id 1 renumbered down to 0). -/
theorem c5_witness :
    ∃ fi', removeFileIdx ⟨2, [⟨0, "C.dae"⟩, ⟨1, "D.dae"⟩]⟩ 0 = some ("C.dae", fi') ∧
      sync_blender_deletions false [] []
        ⟨2, [⟨0, "C.dae"⟩, ⟨1, "D.dae"⟩]⟩
        [⟨"A", 285212673, 1, 1, "0", "0", "1", 0, ⟨true, true, true, true, true⟩⟩]
        [⟨"C.dae", 1, ["t1.dds"]⟩] =
        some (⟨fi', [], [0], [], ["t1.dds", "C.dae", "C.msh"]⟩, 0) ∧
      (∀ f ∈ ([⟨0, "C.dae"⟩, ⟨1, "D.dae"⟩] : List FileEntry), f.id < 0 → f ∈ fi'.files) ∧
      (∀ f ∈ ([⟨0, "C.dae"⟩, ⟨1, "D.dae"⟩] : List FileEntry), 0 < f.id →
        (⟨f.id - 1, f.path⟩ : FileEntry) ∈ fi'.files) ∧
      fi'.files.length + 1 = 2 ∧
      (∀ f ∈ fi'.files, f.path ≠ "C.dae") := by
  refine c5_last_orphan false [] []
    ⟨2, [⟨0, "C.dae"⟩, ⟨1, "D.dae"⟩]⟩
    [⟨"A", 285212673, 1, 1, "0", "0", "1", 0, ⟨true, true, true, true, true⟩⟩]
    [⟨"C.dae", 1, ["t1.dds"]⟩] 0
    ⟨"A", 285212673, 1, 1, "0", "0", "1", 0, ⟨true, true, true, true, true⟩⟩
    ⟨0, "C.dae"⟩ ⟨"C.dae", 1, ["t1.dds"]⟩
    ⟨rfl, by decide, rfl⟩ rfl rfl ?_ ?_ rfl rfl rfl ?_
  · intro j e hj hg
    rcases j with _ | n
    · exact absurd rfl hj
    · simp at hg
  · intro j e hj hg
    rcases j with _ | n
    · exact absurd rfl hj
    · simp at hg
  · intro n _
    rfl

theorem retainFailed_fold_mono (failSet : List String) :
    ∀ (oldSet : List String) (acc : List String × List String),
    ∃ suffix, (oldSet.foldl (fun acc texture =>
      if acc.1.any (fun e => e.toLower == texture.toLower) then acc
      else if failSet.contains texture then (acc.1 ++ [texture], acc.2)
      else (acc.1, acc.2 ++ [texture])) acc).1 = acc.1 ++ suffix := by
  intro oldSet
  induction oldSet with
  | nil => intro acc; exact ⟨[], by simp⟩
  | cons u us ih =>
    intro acc
    rw [List.foldl_cons]
    by_cases h1 : acc.1.any (fun e => e.toLower == u.toLower) = true
    · rw [if_pos h1]
      exact ih acc
    · by_cases h2 : failSet.contains u = true
      · rw [if_neg h1, if_pos h2]
        obtain ⟨s, hs⟩ := ih (acc.1 ++ [u], acc.2)
        exact ⟨[u] ++ s, by rw [hs, List.append_assoc]⟩
      · rw [if_neg h1, if_neg h2]
        exact ih (acc.1, acc.2 ++ [u])

theorem retainFailed_fold_keeps (failSet : List String) :
    ∀ (oldSet : List String) (acc : List String × List String) (t : String),
    t ∈ oldSet → failSet.contains t = true →
    ∃ e ∈ (oldSet.foldl (fun acc texture =>
      if acc.1.any (fun e => e.toLower == texture.toLower) then acc
      else if failSet.contains texture then (acc.1 ++ [texture], acc.2)
      else (acc.1, acc.2 ++ [texture])) acc).1, e.toLower = t.toLower := by
  intro oldSet
  induction oldSet with
  | nil => intro acc t ht _; simp at ht
  | cons u us ih =>
    intro acc t ht htf
    rw [List.foldl_cons]
    rcases List.mem_cons.mp ht with rfl | hmem
    · by_cases h1 : acc.1.any (fun e => e.toLower == t.toLower) = true
      · rw [if_pos h1]
        obtain ⟨e, he, heq⟩ := List.any_eq_true.mp h1
        obtain ⟨s, hs⟩ := retainFailed_fold_mono failSet us acc
        exact ⟨e, by rw [hs]; exact List.mem_append_left _ he, by simpa using heq⟩
      · rw [if_neg h1, if_pos htf]
        obtain ⟨s, hs⟩ := retainFailed_fold_mono failSet us (acc.1 ++ [t], acc.2)
        refine ⟨t, ?_, rfl⟩
        rw [hs]
        exact List.mem_append_left _ (List.mem_append_right _ (List.mem_singleton.mpr rfl))
    · by_cases h1 : acc.1.any (fun e => e.toLower == u.toLower) = true
      · rw [if_pos h1]
        exact ih acc t hmem htf
      · by_cases h2 : failSet.contains u = true
        · rw [if_neg h1, if_pos h2]
          exact ih (acc.1 ++ [u], acc.2) t hmem htf
        · rw [if_neg h1, if_neg h2]
          exact ih (acc.1, acc.2 ++ [u]) t hmem htf

/-- C7 (amended): during derived-file-set replacement
(`delete_unused_textures`) a file whose deletion fails stays listed (up to
case) in the updated `DDSpath` set, so a later pass can retry; but during
orphan removal (`sync_blender_deletions`) the asset ledger entry is erased
even when deletion of its files fails — the function merely returns error
code 1 (before erasing the queued registry rows), and the failed file's
ledger record is gone. -/
theorem c7_retry_semantics :
    (∀ (failSet oldSet newSet : List String) (t : String),
      t ∈ oldSet → failSet.contains t = true →
      ∃ e ∈ (retainFailed failSet oldSet newSet).1, e.toLower = t.toLower) ∧
    (∀ (isEnt : Bool) (live failSet : List String) (fi : FileIndex)
      (objs : List MapObject) (assets : List Asset) (i : Nat) (entry : MapObject)
      (target : FileEntry) (a : Asset),
      objs.get? i = some entry →
      live.contains entry.name = false →
      (∀ j e, j ≠ i → objs.get? j = some e → live.contains e.name = true) →
      (∀ j e, j ≠ i → objs.get? j = some e → e.fileIndex ≠ entry.fileIndex) →
      fi.files.find? (fun f => f.id == entry.fileIndex) = some target →
      assets.find? (fun x => x.daePath ==
        (if isEnt then entToDae target.path else target.path)) = some a →
      (a.uses == 1 || a.uses == 0) = true →
      (∃ n ∈ a.dds ++ [a.daePath, mshOf a.daePath], failSet.contains n = true) →
      ∃ fi', removeFileIdx fi entry.fileIndex = some (target.path, fi') ∧
        sync_blender_deletions isEnt live failSet fi objs assets =
          some (⟨fi',
            objs.map (fun o => if entry.fileIndex < o.fileIndex then
              { o with fileIndex := o.fileIndex - 1 } else o),
            [i],
            assets.eraseP (fun x => x.daePath ==
              (if isEnt then entToDae target.path else target.path)),
            (a.dds ++ [a.daePath, mshOf a.daePath]).filter
              (fun n => !(failSet.contains n))⟩, 1)) := by
  constructor
  · intro failSet oldSet newSet t ht htf
    exact retainFailed_fold_keeps failSet oldSet (newSet, []) t ht htf
  · intro isEnt live failSet fi objs assets i entry target a
      hget hdead hothers hnoshare hfile hfind huses hfailex
    have hrem : removeFileIdx fi entry.fileIndex =
        some (target.path, ⟨fi.numOfFiles - 1,
          (fi.files.eraseP (fun f => f.id == entry.fileIndex)).map
            (fun f => if entry.fileIndex < f.id then ⟨f.id - 1, f.path⟩ else f)⟩) := by
      unfold removeFileIdx
      rw [hfile]
    refine ⟨_, hrem, ?_⟩
    have hil : i < objs.length := by
      rcases List.get?_eq_some.mp hget with ⟨h', -⟩
      exact h'
    have hinuse : entryInUse objs ([] ++ [i]) entry.fileIndex entry.name = false := by
      unfold entryInUse
      rw [List.any_eq_false]
      intro j hj
      rw [List.mem_range] at hj
      by_cases hji : j = i
      · subst hji
        simp
      · cases hg : objs.get? j with
        | none => simp [hg]
        | some e =>
          have := hnoshare j e hji hg
          simp [hg, this]
    have hfailne : delete_assets failSet (a.dds ++ [a.daePath, mshOf a.daePath]) ≠ [] := by
      obtain ⟨n, hn, hnc⟩ := hfailex
      intro hc
      have hmemf : n ∈ delete_assets failSet (a.dds ++ [a.daePath, mshOf a.daePath]) := by
        unfold delete_assets
        rw [List.mem_filter]
        exact ⟨hn, by simpa using hnc⟩
      rw [hc] at hmemf
      simp at hmemf
    unfold sync_blender_deletions
    rw [syncLoop_reach isEnt live failSet i objs.length 0 ⟨fi, objs, [], assets, []⟩
      (fun j e _ hji hg => hothers j e (by omega) hg) (Nat.zero_le i) (by omega)]
    obtain ⟨m, hm⟩ : ∃ m, 0 + objs.length - i = m + 1 := ⟨objs.length - i - 1, by omega⟩
    rw [hm, syncLoop_succ]
    simp only [hget]
    simp only [syncVisit_last_fail isEnt live failSet i entry ⟨fi, objs, [], assets, []⟩
      target.path _ a hdead hinuse hrem hfind huses hfailne]
    rfl

/-- C7 counterexample: an orphan removal whose texture deletion fails
(`t1.dds` cannot be removed) still erases the `C.dae` ledger record — the
failed file does not remain listed in the asset ledger; only error code 1
is returned (and the orphan row is even left in the object table). -/
theorem c7_counterexample :
    sync_blender_deletions false [] ["t1.dds"]
      ⟨1, [⟨0, "C.dae"⟩]⟩
      [⟨"A", 285212673, 1, 1, "0", "0", "1", 0, ⟨true, true, true, true, true⟩⟩]
      [⟨"C.dae", 1, ["t1.dds"]⟩] =
      some (⟨⟨0, []⟩,
             [⟨"A", 285212673, 1, 1, "0", "0", "1", 0, ⟨true, true, true, true, true⟩⟩],
             [0], [], ["C.dae", "C.msh"]⟩, 1) ∧
    ([] : List Asset) ≠ [⟨"C.dae", 1, ["t1.dds"]⟩] :=
  ⟨rfl, by decide⟩

/-- Witness for C7: the texture-retention loop keeps a failed file listed,
and the concrete failing orphan removal erases the ledger record. -/
theorem c7_witness :
    (∃ e ∈ (retainFailed ["t.dds"] ["t.dds"] []).1, e.toLower = "t.dds".toLower) ∧
    (∃ fi', removeFileIdx ⟨1, [⟨0, "C.dae"⟩]⟩ 0 = some ("C.dae", fi') ∧
      sync_blender_deletions false [] ["t1.dds"]
        ⟨1, [⟨0, "C.dae"⟩]⟩
        [⟨"A", 285212673, 1, 1, "0", "0", "1", 0, ⟨true, true, true, true, true⟩⟩]
        [⟨"C.dae", 1, ["t1.dds"]⟩] =
        some (⟨fi',
          [⟨"A", 285212673, 1, 1, "0", "0", "1", 0, ⟨true, true, true, true, true⟩⟩],
          [0], [], ["C.dae", "C.msh"]⟩, 1)) := by
  constructor
  · exact c7_retry_semantics.1 ["t.dds"] ["t.dds"] [] "t.dds" (by simp) rfl
  · refine c7_retry_semantics.2 false [] ["t1.dds"]
      ⟨1, [⟨0, "C.dae"⟩]⟩
      [⟨"A", 285212673, 1, 1, "0", "0", "1", 0, ⟨true, true, true, true, true⟩⟩]
      [⟨"C.dae", 1, ["t1.dds"]⟩] 0
      ⟨"A", 285212673, 1, 1, "0", "0", "1", 0, ⟨true, true, true, true, true⟩⟩
      ⟨0, "C.dae"⟩ ⟨"C.dae", 1, ["t1.dds"]⟩
      rfl rfl ?_ ?_ rfl rfl rfl ⟨"t1.dds", by simp, rfl⟩
    · intro j e hj hg
      rcases j with _ | n
      · exact absurd rfl hj
      · simp at hg
    · intro j e hj hg
      rcases j with _ | n
      · exact absurd rfl hj
      · simp at hg

end HPL3
